import Mathlib

/-!
Verification of the ephemeral room-relay server (Go sources under
`internal/rooms`, `internal/httpx`, `internal/migrate` and `cmd/ephemeral`).

The SQLite-backed state is embedded as explicit record values: a database
is a list of room rows plus a list of message rows, and each Go function
that runs inside one SQL transaction becomes a pure Lean function from the
pre-state (together with the sampled clock `now`) to its result and
post-state.  Go `int`/`int64` values are modelled as `Int`, byte strings as
`List Nat` with every entry below 256, and Go errors as `Except`/`Option`
results carrying the literal error strings of the source.
-/

namespace Ephemeral

/-- One row of `ephemeral_rooms`: the schema names the key column `id`,
the store code (`rooms.Create`, `rooms.Exists`, …) calls it `token`;
both denote the single TEXT primary key of the table. -/
structure RoomRow where
  token : String
  createdAt : Int
  expiresAt : Int
  deriving Repr, DecidableEq

/-- One row of `ephemeral_messages` (`internal/rooms/messages.go`,
`MessageRow` plus the `room_id` column the SQL carries). -/
structure MessageRow where
  roomId : String
  seq : Int
  createdAt : Int
  nonce : List Nat
  ciphertext : List Nat
  messageType : String
  deriving Repr, DecidableEq

/-- The persistent state the room and message operations touch. -/
structure DB where
  rooms : List RoomRow
  messages : List MessageRow
  deriving Repr, DecidableEq

/-- `SELECT expires_at FROM ephemeral_rooms WHERE token = ?` — the token is
the primary key, so the first matching row is the row. -/
def findRoom (db : DB) (token : String) : Option RoomRow :=
  db.rooms.find? (fun r => r.token == token)

/-- Messages of one room, in insertion (rowid) order. -/
def roomMessages (db : DB) (roomID : String) : List MessageRow :=
  db.messages.filter (fun m => m.roomId == roomID)

/-- `SELECT COALESCE(MAX(seq), 0) FROM ephemeral_messages WHERE room_id = ?`
(`rooms.GetMaxSeq` and the seq-assignment subquery). -/
def maxSeq (db : DB) (roomID : String) : Int :=
  (roomMessages db roomID).foldl (fun acc m => max acc m.seq) 0

/-- Modelled from the spec: the `rooms.InsertMessage` that `wsHandler`
calls (`internal/httpx/ws.go:253`) takes six arguments and returns the
assigned sequence, but no source file under `src/` carries that version —
the two `InsertMessage` bodies present (in `internal/rooms/messages.go`
and bundled with `cmd/ephemeral/main.go`) both take a caller-supplied
`seq` and return only an error, a signature the call in `ws.go` does not
match.  Following §4.3 of the spec, inside one transaction: look up the
room's expiry (absent → "room not found"), reject expired rooms
("room expired"), compute `assignedSeq = COALESCE(MAX(seq), 0) + 1` for
the room, insert the row, commit, and return the assigned value. -/
def insertMessage (db : DB) (now : Int) (roomID : String)
    (nonce ciphertext : List Nat) (createdAt : Int) (messageType : String) :
    Except String (DB × Int) :=
  match findRoom db roomID with
  | none => .error "room not found"
  | some room =>
    if room.expiresAt ≤ now then
      .error "room expired"
    else
      let assignedSeq := maxSeq db roomID + 1
      let row : MessageRow :=
        { roomId := roomID, seq := assignedSeq, createdAt := createdAt
          nonce := nonce, ciphertext := ciphertext, messageType := messageType }
      .ok ({ db with messages := db.messages ++ [row] }, assignedSeq)

/-- Order on message rows realising `ORDER BY seq ASC`. -/
def seqLe (a b : MessageRow) : Prop :=
  a.seq ≤ b.seq

instance : DecidableRel seqLe :=
  fun a b => inferInstanceAs (Decidable (a.seq ≤ b.seq))

instance : IsTotal MessageRow seqLe :=
  ⟨fun a b => le_total a.seq b.seq⟩

instance : IsTrans MessageRow seqLe :=
  ⟨fun _ _ _ hab hbc => le_trans hab hbc⟩

/-- `rooms.GetMessagesSince` (`internal/rooms/messages.go:75`): room gate
(not-found / expired), then
`SELECT … WHERE room_id = ? AND seq > ? ORDER BY seq ASC`. -/
def getMessagesSince (db : DB) (now : Int) (roomID : String) (afterSeq : Int) :
    Except String (List MessageRow) :=
  match findRoom db roomID with
  | none => .error "room not found"
  | some room =>
    if room.expiresAt ≤ now then
      .error "room expired"
    else
      .ok (List.insertionSort seqLe (db.messages.filter
        (fun m => m.roomId == roomID && afterSeq < m.seq)))

/-- `rooms.Exists` (`internal/rooms`, bundled file): a row with this token
and `expires_at > now` exists. -/
def roomExists (db : DB) (now : Int) (token : String) : Bool :=
  db.rooms.any (fun r => r.token == token && now < r.expiresAt)

/-- `rooms.CleanupExpired` (`internal/rooms/cleanup.go`): one transaction
that runs `DELETE FROM ephemeral_messages WHERE room_id IN (SELECT id
FROM ephemeral_rooms WHERE expires_at <= ?)` and then deletes the expired
rooms.  The rooms table that the rest of the store addresses (`Create`,
`Exists`, `GetExpiry`, `Delete`, `InsertMessage`) is keyed by the TEXT
column `token` and has no `id` column, so SQLite resolves the subquery's
`id` to the outer `ephemeral_messages.id`: for each candidate message the
subquery yields that message's own integer row id (once per expired
room), and a 32-character hex `room_id` written by the handler never
compares equal to it (a 64-bit row id prints to at most 19 characters).
The message DELETE therefore removes nothing, and the transaction commits
having deleted only the expired room rows. -/
def cleanupExpired (db : DB) (now : Int) : DB :=
  { rooms := db.rooms.filter (fun r => !(r.expiresAt ≤ now))
    messages := db.messages }

/-- `rooms.Delete` (bundled with the migration-runner summary doc):
`DELETE FROM ephemeral_rooms WHERE token = ?` — it touches only the rooms
table, never `ephemeral_messages`. -/
def roomDelete (db : DB) (token : String) : DB :=
  { db with rooms := db.rooms.filter (fun r => !(r.token == token)) }

/-- Every message's room is present: the no-orphan invariant of §3. -/
def noOrphans (db : DB) : Prop :=
  ∀ m ∈ db.messages, ∃ r ∈ db.rooms, r.token = m.roomId

/-! ### Base64 (`encoding/base64` as used by `ws.go`)

`decodeBase64` in `ws.go` tries, in order, `StdEncoding`, `RawStdEncoding`,
`URLEncoding` and `RawURLEncoding`; `sendHistory` emits with
`RawURLEncoding.EncodeToString`.  Encoders and decoders are modelled per
alphabet, bytes as `Nat` below 256, base64 text as `List Char`. -/

/-- The standard base64 alphabet (`+` and `/` at 62, 63). -/
def stdAlphabet : List Char :=
  "ABCDEFGHIJKLMNOPQRSTUVWXYZabcdefghijklmnopqrstuvwxyz0123456789+/".toList

/-- The URL-safe base64 alphabet (`-` and `_` at 62, 63). -/
def urlAlphabet : List Char :=
  "ABCDEFGHIJKLMNOPQRSTUVWXYZabcdefghijklmnopqrstuvwxyz0123456789-_".toList

/-- Encode a byte list in 3-byte groups; `pad` appends `=` padding as the
non-`Raw` Go encodings do. -/
def b64Encode (alpha : List Char) (pad : Bool) : List Nat → List Char
  | b1 :: b2 :: b3 :: rest =>
      alpha.getD (b1 / 4) ' ' ::
      alpha.getD (b1 % 4 * 16 + b2 / 16) ' ' ::
      alpha.getD (b2 % 16 * 4 + b3 / 64) ' ' ::
      alpha.getD (b3 % 64) ' ' ::
      b64Encode alpha pad rest
  | [b1, b2] =>
      alpha.getD (b1 / 4) ' ' ::
      alpha.getD (b1 % 4 * 16 + b2 / 16) ' ' ::
      alpha.getD (b2 % 16 * 4) ' ' ::
      (if pad then ['='] else [])
  | [b1] =>
      alpha.getD (b1 / 4) ' ' ::
      alpha.getD (b1 % 4 * 16) ' ' ::
      (if pad then ['=', '='] else [])
  | [] => []

/-- Go's per-character decode map: position of the character in the
alphabet, `none` for a character outside it. -/
def b64DecodeChar (alpha : List Char) (ch : Char) : Option Nat :=
  alpha.findIdx? (fun a => a == ch)

/-- Padded (`StdEncoding`/`URLEncoding`) decoding: whole 4-character
quanta, `=` padding only in the final quantum, any foreign character or
leftover length is an error. -/
def b64DecodePadded (alpha : List Char) : List Char → Option (List Nat)
  | [] => some []
  | c1 :: c2 :: c3 :: c4 :: rest =>
    match b64DecodeChar alpha c1, b64DecodeChar alpha c2 with
    | some i1, some i2 =>
      if c3 = '=' then
        if c4 = '=' ∧ rest = [] then some [i1 * 4 + i2 / 16] else none
      else
        match b64DecodeChar alpha c3 with
        | some i3 =>
          if c4 = '=' then
            if rest = [] then some [i1 * 4 + i2 / 16, i2 % 16 * 16 + i3 / 4]
            else none
          else
            match b64DecodeChar alpha c4 with
            | some i4 =>
              (b64DecodePadded alpha rest).map
                (fun bs => (i1 * 4 + i2 / 16) :: (i2 % 16 * 16 + i3 / 4) ::
                  (i3 % 4 * 64 + i4) :: bs)
            | none => none
        | none => none
    | _, _ => none
  | _ => none

/-- Unpadded (`RawStdEncoding`/`RawURLEncoding`) decoding: 4-character
quanta with a final quantum of 2 or 3 characters; `=` is a foreign
character here. -/
def b64DecodeRaw (alpha : List Char) : List Char → Option (List Nat)
  | [] => some []
  | [_] => none
  | [c1, c2] =>
    match b64DecodeChar alpha c1, b64DecodeChar alpha c2 with
    | some i1, some i2 => some [i1 * 4 + i2 / 16]
    | _, _ => none
  | [c1, c2, c3] =>
    match b64DecodeChar alpha c1, b64DecodeChar alpha c2,
        b64DecodeChar alpha c3 with
    | some i1, some i2, some i3 =>
      some [i1 * 4 + i2 / 16, i2 % 16 * 16 + i3 / 4]
    | _, _, _ => none
  | c1 :: c2 :: c3 :: c4 :: rest =>
    match b64DecodeChar alpha c1, b64DecodeChar alpha c2,
        b64DecodeChar alpha c3, b64DecodeChar alpha c4 with
    | some i1, some i2, some i3, some i4 =>
      (b64DecodeRaw alpha rest).map
        (fun bs => (i1 * 4 + i2 / 16) :: (i2 % 16 * 16 + i3 / 4) ::
          (i3 % 4 * 64 + i4) :: bs)
    | _, _, _, _ => none

/-- `decodeBase64` (`internal/httpx/ws.go:285`): reject the empty string,
then try standard, raw-standard, URL-safe and raw-URL-safe in order. -/
def decodeBase64 (value : List Char) : Option (List Nat) :=
  if value = [] then none
  else match b64DecodePadded stdAlphabet value with
  | some b => some b
  | none =>
    match b64DecodeRaw stdAlphabet value with
    | some b => some b
    | none =>
      match b64DecodePadded urlAlphabet value with
      | some b => some b
      | none => b64DecodeRaw urlAlphabet value

/-- `sendHistory`'s emission of stored bytes:
`base64.RawURLEncoding.EncodeToString` (`internal/httpx/ws.go:136`). -/
def replayEncode (bs : List Nat) : List Char :=
  b64Encode urlAlphabet false bs

/-! ### The WebSocket reader loop (`internal/httpx/ws.go`)

JSON decoding is left abstract: a received frame is either invalid JSON or
an envelope carrying its type tag together with the outcome of
unmarshalling `d` as the persisted-message struct and as the `READY`
struct (Go zero values stand for absent fields). -/

/-- Outcome of `json.Unmarshal(envelope.Payload, &payload)` for the
persisted-message struct of `ws.go:213`. -/
structure MsgPayload where
  seq : Int
  nonce : List Char
  ciphertext : List Char
  version : Int
  n : List Char
  c : List Char
  deriving Repr, DecidableEq

inductive PayloadParse where
  | failed
  | ok (p : MsgPayload)
  deriving Repr, DecidableEq

/-- Outcome of unmarshalling `d` as the `READY` struct
(`struct { LastSeenSeq int }`). -/
inductive ReadyParse where
  | failed
  | ok (lastSeenSeq : Int)
  deriving Repr, DecidableEq

/-- A frame as the reader loop sees it after `wsconn.Read`. -/
inductive Frame where
  | invalidJson
  | envelope (t : String) (d : PayloadParse) (r : ReadyParse)
  deriving Repr, DecidableEq

/-- What one reader-loop iteration does, as observable effect:
close, silent drop, per-sender `ERROR` frame, `READY` handling (new
watermark plus the replay read), persist-then-fan-out (with the rewritten
payload), or verbatim relay to the peers. -/
inductive Action where
  | closeConn
  | dropSilent
  | replyError (code message : String)
  | ready (watermark : Int) (replay : Except String (List MessageRow))
  | persistAndBroadcast (db : DB) (assignedSeq : Int) (out : MsgPayload)
  | relayVerbatim
  deriving Repr

/-- `ws.go:195`: on `READY`, `lastSeenSeq` is overwritten by the payload
value whenever the struct unmarshals and the value is positive. -/
def readyWatermark (current : Int) (r : ReadyParse) : Int :=
  match r with
  | .failed => current
  | .ok s => if 0 < s then s else current

/-- The rows `sendHistory` reads after a `READY` updated the watermark. -/
def readyReplayRows (db : DB) (now : Int) (token : String) (current : Int)
    (r : ReadyParse) : Except String (List MessageRow) :=
  getMessagesSince db now token (readyWatermark current r)

/-- The message types `ws.go:212` persists. -/
def persistedTypes : List String := ["MSG", "IMG_META", "IMG_CHUNK", "IMG_END"]

/-- `ws.go:225`–`232`: prefer the long-form field, fall back to the
compact one when the long form is absent (Go zero value). -/
def effectiveField (long short : List Char) : List Char :=
  if long = [] then short else long

/-- One iteration of the reader loop (`ws.go:171`–`281`): liveness
re-check, envelope validation, dispatch on `t`. -/
def readerStep (db : DB) (now : Int) (token : String) (lastSeenSeq : Int)
    (f : Frame) : Action :=
  if !(roomExists db now token) then .closeConn
  else match f with
  | .invalidJson => .dropSilent
  | .envelope t d r =>
    if t = "" then .dropSilent
    else if t = "READY" then
      .ready (readyWatermark lastSeenSeq r)
        (readyReplayRows db now token lastSeenSeq r)
    else if persistedTypes.contains t then
      match d with
      | .failed => .dropSilent
      | .ok p =>
        let nonce := effectiveField p.nonce p.n
        let ciphertext := effectiveField p.ciphertext p.c
        if p.seq < 0 ∨ nonce = [] ∨ ciphertext = [] then
          .replyError "MSG_REJECTED" "invalid sequence or payload"
        else
          match decodeBase64 nonce with
          | none => .replyError "MSG_REJECTED" "invalid or duplicate seq"
          | some nonceBytes =>
            match decodeBase64 ciphertext with
            | none => .replyError "MSG_REJECTED" "invalid or duplicate seq"
            | some cipherBytes =>
              match insertMessage db now token nonceBytes cipherBytes now t with
              | .error _ =>
                .replyError "MSG_REJECTED" "failed to persist message"
              | .ok (db2, s) => .persistAndBroadcast db2 s { p with seq := s }
    else .relayVerbatim

/-- `strconv.Atoi`: optional sign followed by at least one decimal digit,
nothing else. -/
def parseDigits (s : List Char) : Option Nat :=
  if s = [] then none
  else if s.all (fun ch => ch.isDigit) then
    some (s.foldl (fun a ch => a * 10 + (ch.toNat - 48)) 0)
  else none

def goAtoi (s : List Char) : Option Int :=
  match s with
  | '+' :: rest => (parseDigits rest).map (fun v => (v : Int))
  | '-' :: rest => (parseDigits rest).map (fun v => -(v : Int))
  | _ => (parseDigits s).map (fun v => (v : Int))

/-- `ws.go:76`–`86`: the initial watermark starts at 0, is set from
`after_seq` when that parses to a non-negative integer, then set from
`after` under the same test (so a valid `after` overrides `after_seq`).
The empty string stands for an absent parameter. -/
def watermarkFromQuery (afterSeqParam afterParam : List Char) : Int :=
  let w1 : Int := 0
  let w2 :=
    if afterSeqParam = [] then w1
    else match goAtoi afterSeqParam with
      | some v => if 0 ≤ v then v else w1
      | none => w1
  if afterParam = [] then w2
  else match goAtoi afterParam with
    | some v => if 0 ≤ v then v else w2
    | none => w2

/-- A history frame as `sendHistory` marshals it (`ws.go:117`–`150`). -/
structure HistoryFrame where
  t : String
  version : Int
  seq : Int
  n : List Char
  c : List Char
  deriving Repr, DecidableEq

/-- `sendHistory`'s framing of the replayed rows: original message type,
`v:1`, stored `seq`, nonce and ciphertext re-encoded with
`RawURLEncoding`. -/
def sendHistoryFrames (rows : List MessageRow) : List HistoryFrame :=
  rows.map (fun row =>
    { t := row.messageType, version := 1, seq := row.seq
      n := replayEncode row.nonce, c := replayEncode row.ciphertext })

/-! ### Migration runner (`internal/migrate`, source bundled in the
unnamed files)

The tracking table `schema_migrations` and the side effects of the SQL
batches are modelled explicitly; whether a given file's SQL batch errors
is an oracle `fails` indexed by version.  `applyMigration` is atomic:
either the batch runs and the tracking row lands, or the transaction rolls
back and the state is unchanged. -/

structure Migration where
  version : Int
  name : List Char
  filename : List Char
  deriving Repr, DecidableEq

inductive MigError where
  | badFilename (filename : List Char)
  | badVersion (filename : List Char)
  | applyFailed (version : Int) (name : List Char)
  deriving Repr, DecidableEq

/-- `strings.SplitN(name, "_", 2)`: the part before the first underscore
and the rest; `none` when there is no underscore (Go then reports an
invalid filename format). -/
def splitAtUnderscore : List Char → Option (List Char × List Char)
  | [] => none
  | '_' :: rest => some ([], rest)
  | ch :: rest => (splitAtUnderscore rest).map (fun pr => (ch :: pr.1, pr.2))

def hasSqlSuffix (s : List Char) : Bool :=
  ".sql".toList.isSuffixOf s

/-- `strings.TrimSuffix(parts[1], ".sql")`. -/
def trimSqlSuffix (s : List Char) : List Char :=
  if hasSqlSuffix s then s.take (s.length - 4) else s

/-- `discoverMigrations`: keep `.sql` entries, parse `NNN_name.sql` into
version and name, abort on a malformed filename or unparseable version. -/
def discoverMigrations : List (List Char) → Except MigError (List Migration)
  | [] => .ok []
  | f :: rest =>
    if hasSqlSuffix f then
      match splitAtUnderscore f with
      | none => .error (.badFilename f)
      | some (verStr, tail) =>
        match goAtoi verStr with
        | none => .error (.badVersion f)
        | some v =>
          (discoverMigrations rest).map
            (fun ms => { version := v, name := trimSqlSuffix tail
                         filename := f } :: ms)
    else discoverMigrations rest

/-- `sort.Slice` by version ascending. -/
def sortMigrations (ms : List Migration) : List Migration :=
  ms.mergeSort (fun a b => a.version ≤ b.version)

/-- The version numbers of a list of migrations, in order. -/
def versionsOf (ms : List Migration) : List Int :=
  ms.map (fun m => m.version)

/-- The migration-relevant database state: the `schema_migrations` rows in
insertion order, and the trace of SQL batches that actually committed. -/
structure MigDB where
  applied : List (Int × List Char)
  schemaOps : List Int
  deriving Repr, DecidableEq

/-- `getAppliedVersion`: `SELECT COALESCE(MAX(version), 0)`. -/
def appliedHead (st : MigDB) : Int :=
  st.applied.foldl (fun a p => max a p.1) 0

/-- State after appending the tracking rows and SQL traces of a list of
migrations, in order (the cumulative effect of successful
`applyMigration` transactions). -/
def addApplied (st : MigDB) (ms : List Migration) : MigDB :=
  { applied := st.applied ++ ms.map (fun m => (m.version, m.name))
    schemaOps := st.schemaOps ++ versionsOf ms }

/-- `applyMigration`: one transaction running the file's SQL and inserting
the tracking row; a failing batch rolls the whole transaction back. -/
def applyMigration (fails : Int → Bool) (m : Migration) (st : MigDB) :
    Option MigDB :=
  if fails m.version then none
  else some { applied := st.applied ++ [(m.version, m.name)]
              schemaOps := st.schemaOps ++ [m.version] }

/-- The loop over pending migrations in `Run`: stop at the first failure,
naming the failing migration. -/
def runPending (fails : Int → Bool) : List Migration → MigDB →
    MigDB × Option MigError
  | [], st => (st, none)
  | m :: rest, st =>
    match applyMigration fails m st with
    | none => (st, some (.applyFailed m.version m.name))
    | some st2 => runPending fails rest st2

/-- `Runner.Run`: ensure the tracking table, read the applied head,
discover and sort the files, filter those with a strictly larger version,
apply them in ascending order. -/
def migrationsRun (files : List (List Char)) (fails : Int → Bool)
    (st : MigDB) : MigDB × Option MigError :=
  match discoverMigrations files with
  | .error e => (st, some e)
  | .ok ms =>
    runPending fails
      ((sortMigrations ms).filter (fun m => appliedHead st < m.version)) st

/-! ## Helper lemmas -/

theorem le_foldlMax_init (l : List MessageRow) (a : Int) :
    a ≤ l.foldl (fun acc m => max acc m.seq) a := by
  induction l generalizing a with
  | nil => simp
  | cons x xs ih =>
    simpa using le_trans (le_max_left a x.seq) (ih (max a x.seq))

theorem mem_le_foldlMax (m : MessageRow) :
    ∀ (l : List MessageRow) (a : Int), m ∈ l →
      m.seq ≤ l.foldl (fun acc m => max acc m.seq) a
  | [], _, hm => absurd hm (List.not_mem_nil m)
  | x :: xs, a, hm => by
    rcases List.mem_cons.mp hm with h | h
    · subst h
      simpa using le_trans (le_max_right a m.seq) (le_foldlMax_init xs _)
    · simpa using mem_le_foldlMax m xs (max a x.seq) h

theorem seq_le_maxSeq (db : DB) (room : String) (m : MessageRow)
    (hm : m ∈ roomMessages db room) : m.seq ≤ maxSeq db room :=
  mem_le_foldlMax m _ 0 hm

/-- Unpacking a successful `insertMessage`: the returned value is
`COALESCE(MAX(seq), 0) + 1` for the room, the state gains exactly the one
row, and the room was live. -/
theorem insertMessage_ok (db : DB) (now : Int) (roomID : String)
    (nb cb : List Nat) (ca : Int) (mt : String) (db' : DB) (s : Int)
    (h : insertMessage db now roomID nb cb ca mt = .ok (db', s)) :
    s = maxSeq db roomID + 1 ∧
    db' = { db with messages := db.messages ++
      [{ roomId := roomID, seq := s, createdAt := ca
         nonce := nb, ciphertext := cb, messageType := mt }] } ∧
    ∃ room, findRoom db roomID = some room ∧ now < room.expiresAt := by
  unfold insertMessage at h
  split at h
  · cases h
  · rename_i room hf
    split at h
    · cases h
    · rename_i hexp
      simp only [Except.ok.injEq, Prod.mk.injEq] at h
      obtain ⟨hdb, hs⟩ := h
      subst hs
      exact ⟨rfl, hdb.symm, room, hf, lt_of_not_le hexp⟩

theorem roomMessages_insert_same (db : DB) (row : MessageRow)
    (room : String) (hr : row.roomId = room) :
    roomMessages { db with messages := db.messages ++ [row] } room =
      roomMessages db room ++ [row] := by
  simp [roomMessages, List.filter_append, hr]

theorem roomMessages_insert_other (db : DB) (row : MessageRow)
    (room : String) (hr : row.roomId ≠ room) :
    roomMessages { db with messages := db.messages ++ [row] } room =
      roomMessages db room := by
  simp [roomMessages, List.filter_append, hr]

/-- C1 — For every successfully persisted frame of type `MSG`, `IMG_META`,
`IMG_CHUNK` or `IMG_END`, `InsertMessage` assigns the sequence number
server-side inside its transaction as `COALESCE(MAX(seq), 0) + 1` over the
room's existing messages and returns that assigned value, and the envelope
fanned out to the peers carries `d.seq` equal to this server-assigned
value, regardless of any `seq` the client proposed (the payload `p`, and
with it the client's proposed `p.seq`, is universally quantified). -/
theorem c1_server_assigns_seq
    (db : DB) (now : Int) (token : String) (ls : Int) (t : String)
    (p : MsgPayload) (r : ReadyParse) (db2 : DB) (s : Int) (out : MsgPayload)
    (ht : persistedTypes.contains t = true)
    (h : readerStep db now token ls (.envelope t (.ok p) r) =
      .persistAndBroadcast db2 s out) :
    s = maxSeq db token + 1 ∧ out.seq = s ∧ out = { p with seq := s } ∧
    (∀ nb cb ca mt st2 s2, insertMessage db now token nb cb ca mt =
      .ok (st2, s2) → s2 = maxSeq db token + 1) := by
  have hret : ∀ nb cb ca mt st2 s2,
      insertMessage db now token nb cb ca mt = .ok (st2, s2) →
      s2 = maxSeq db token + 1 := by
    intro nb cb ca mt st2 s2 hins
    exact (insertMessage_ok db now token nb cb ca mt st2 s2 hins).1
  simp only [readerStep] at h
  split at h
  · cases h
  · split at h
    · cases h
    · split at h
      · cases h
      · split at h
        · cases h
        · split at h
          · cases h
          · split at h
            · cases h
            · split at h
              · cases h
              · rename_i hins
                obtain ⟨hdb, hs, hout⟩ := Action.persistAndBroadcast.inj h
                have hs2 := hret _ _ _ _ _ _ hins
                refine ⟨hs ▸ hs2, ?_, ?_, hret⟩
                · rw [← hout, ← hs]
                · rw [← hout, ← hs]

/-- Witness for C1: in a live room with no messages, a `MSG` frame whose
client proposed `seq = 7` is persisted with the server-assigned `seq = 1 =
COALESCE(MAX(seq), 0) + 1` and fanned out with `d.seq = 1`. -/
theorem c1_server_assigns_seq_witness :
    (1 : Int) = maxSeq ⟨[⟨"r", 0, 100⟩], []⟩ "r" + 1 ∧
    (MsgPayload.mk 1 "AAAA".toList "AAAA".toList 1 [] []).seq = 1 :=
  have h := c1_server_assigns_seq ⟨[⟨"r", 0, 100⟩], []⟩ 0 "r" 0 "MSG"
    ⟨7, "AAAA".toList, "AAAA".toList, 1, [], []⟩ .failed
    ⟨[⟨"r", 0, 100⟩], [⟨"r", 1, 0, [0, 0, 0], [0, 0, 0], "MSG"⟩]⟩ 1
    ⟨1, "AAAA".toList, "AAAA".toList, 1, [], []⟩ (by decide) (by rfl)
  ⟨h.1, by rw [h.2.2.1]⟩

/-- C2 — For every room and any two successfully persisted messages,
their `seq` values differ, the commit order agrees with the `seq` order
(the second of two successive successful inserts gets the strictly larger
value), and distinctness of the per-room `seq` multiset is preserved by
construction — `insertMessage` has no duplicate check, the fresh value
exceeds every existing one. -/
theorem c2_seq_unique_and_ordered (db : DB) (now1 now2 : Int) (token : String)
    (n1 c1 n2 c2 : List Nat) (ca1 ca2 : Int) (mt1 mt2 : String)
    (db1 db2 : DB) (s1 s2 : Int)
    (h1 : insertMessage db now1 token n1 c1 ca1 mt1 = .ok (db1, s1))
    (h2 : insertMessage db1 now2 token n2 c2 ca2 mt2 = .ok (db2, s2)) :
    s1 ≠ s2 ∧ s1 < s2 ∧
    ∀ room, ((roomMessages db room).map (fun m => m.seq)).Pairwise (· ≠ ·) →
      ((roomMessages db1 room).map (fun m => m.seq)).Pairwise (· ≠ ·) := by
  obtain ⟨hs1, hdb1, -⟩ := insertMessage_ok _ _ _ _ _ _ _ _ _ h1
  obtain ⟨hs2, -, -⟩ := insertMessage_ok _ _ _ _ _ _ _ _ _ h2
  have hrow : (⟨token, s1, ca1, n1, c1, mt1⟩ : MessageRow) ∈
      roomMessages db1 token := by
    rw [hdb1, roomMessages_insert_same db _ token rfl]
    exact List.mem_append_right _ (by simp)
  have hle : s1 ≤ maxSeq db1 token := seq_le_maxSeq db1 token _ hrow
  have hlt : s1 < s2 := by omega
  refine ⟨ne_of_lt hlt, hlt, ?_⟩
  intro room hpw
  by_cases hr : token = room
  · subst hr
    rw [hdb1, roomMessages_insert_same db _ token rfl, List.map_append]
    refine List.pairwise_append.mpr ⟨hpw, by simp, ?_⟩
    intro x hx y hy
    simp only [List.map_cons, List.map_nil, List.mem_singleton] at hy
    subst hy
    obtain ⟨m, hm, hxm⟩ := List.mem_map.mp hx
    have := seq_le_maxSeq db token m hm
    omega
  · rw [hdb1, roomMessages_insert_other db _ room (by simpa using hr)]
    exact hpw

/-- Witness for C2: two successive inserts into a fresh live room get
`seq` 1 then 2: distinct and in commit order. -/
theorem c2_seq_unique_and_ordered_witness : (1 : Int) ≠ 2 ∧ (1 : Int) < 2 :=
  have h := c2_seq_unique_and_ordered ⟨[⟨"r", 0, 100⟩], []⟩ 0 0 "r"
    [1] [2] [3] [4] 0 0 "MSG" "MSG"
    ⟨[⟨"r", 0, 100⟩], [⟨"r", 1, 0, [1], [2], "MSG"⟩]⟩
    ⟨[⟨"r", 0, 100⟩], [⟨"r", 1, 0, [1], [2], "MSG"⟩,
      ⟨"r", 2, 0, [3], [4], "MSG"⟩]⟩ 1 2 (by rfl) (by rfl)
  ⟨h.1, h.2.1⟩


/-- C3 — code bug: at `now = 50`, `CleanupExpired` on a state with one
room expired at 10 holding one message deletes the room row but leaves
the message behind (the `SELECT id FROM ephemeral_rooms` subquery is a
correlated no-op against the token-keyed rooms table), and `Delete` on a
live room holding one message likewise removes only the room row — in
both cases a persisted message belongs to a room that no longer exists,
against the claim and spec §4.2. -/
theorem c3_cleanup_code_bug :
    cleanupExpired ⟨[⟨"r", 0, 10⟩], [⟨"r", 1, 0, [1], [2], "MSG"⟩]⟩ 50 =
      ⟨[], [⟨"r", 1, 0, [1], [2], "MSG"⟩]⟩
    ∧ ¬ noOrphans (cleanupExpired ⟨[⟨"r", 0, 10⟩],
        [⟨"r", 1, 0, [1], [2], "MSG"⟩]⟩ 50)
    ∧ roomDelete ⟨[⟨"r", 0, 100⟩], [⟨"r", 1, 0, [1], [2], "MSG"⟩]⟩ "r" =
        ⟨[], [⟨"r", 1, 0, [1], [2], "MSG"⟩]⟩
    ∧ ¬ noOrphans (roomDelete ⟨[⟨"r", 0, 100⟩],
        [⟨"r", 1, 0, [1], [2], "MSG"⟩]⟩ "r") := by
  refine ⟨rfl, ?_, rfl, ?_⟩
  · intro h
    obtain ⟨r, hr, -⟩ := h ⟨"r", 1, 0, [1], [2], "MSG"⟩
      (by simp [cleanupExpired])
    simp [cleanupExpired] at hr
  · intro h
    obtain ⟨r, hr, -⟩ := h ⟨"r", 1, 0, [1], [2], "MSG"⟩
      (by simp [roomDelete])
    simp [roomDelete] at hr

/-- C4 — `GetMessagesSince` fails with not-found when no room with the
token exists, with room-expired when `expiry ≤ now`, and otherwise returns
exactly the persisted rows of the room with `seq > afterSeq` — as a
multiset (a permutation of the SQL filter), with membership characterised
— in ascending `seq` order, and nothing else. -/
theorem c4_get_messages_since (db : DB) (now : Int) (token : String)
    (afterSeq : Int) :
    (findRoom db token = none →
      getMessagesSince db now token afterSeq = .error "room not found")
    ∧ (∀ room, findRoom db token = some room → room.expiresAt ≤ now →
      getMessagesSince db now token afterSeq = .error "room expired")
    ∧ (∀ room, findRoom db token = some room → now < room.expiresAt →
      ∃ rows, getMessagesSince db now token afterSeq = .ok rows ∧
        rows.Perm (db.messages.filter
          (fun m => m.roomId == token && afterSeq < m.seq)) ∧
        (∀ m, m ∈ rows ↔ m ∈ db.messages ∧ m.roomId = token ∧ afterSeq < m.seq) ∧
        List.Pairwise seqLe rows) := by
  refine ⟨?_, ?_, ?_⟩
  · intro h
    simp [getMessagesSince, h]
  · intro room h hx
    simp [getMessagesSince, h, hx]
  · intro room h hlive
    refine ⟨List.insertionSort seqLe (db.messages.filter
        (fun m => m.roomId == token && afterSeq < m.seq)),
      by simp [getMessagesSince, h, not_le.mpr hlive], ?_, ?_, ?_⟩
    · exact List.perm_insertionSort seqLe _
    · intro m
      rw [(List.perm_insertionSort seqLe _).mem_iff, List.mem_filter]
      simp [decide_eq_true_eq]
    · exact List.sorted_insertionSort seqLe _

/-- Witness for C4: one message below the watermark, one above; the
result holds exactly the row with `seq = 2`. -/
theorem c4_get_messages_since_witness :
    getMessagesSince ⟨[⟨"r", 0, 100⟩],
        [⟨"r", 2, 0, [3], [4], "MSG"⟩, ⟨"r", 1, 0, [1], [2], "MSG"⟩]⟩ 0 "r" 1 =
      .ok [⟨"r", 2, 0, [3], [4], "MSG"⟩] ∧
    (⟨"r", 2, 0, [3], [4], "MSG"⟩ : MessageRow) ∈
      [(⟨"r", 2, 0, [3], [4], "MSG"⟩ : MessageRow)] := by
  obtain ⟨rows, heq, hperm, hmem, hsort⟩ :=
    (c4_get_messages_since ⟨[⟨"r", 0, 100⟩],
      [⟨"r", 2, 0, [3], [4], "MSG"⟩, ⟨"r", 1, 0, [1], [2], "MSG"⟩]⟩ 0 "r" 1).2.2
      ⟨"r", 0, 100⟩ (by rfl) (by decide)
  have hrows : rows = [⟨"r", 2, 0, [3], [4], "MSG"⟩] := by
    have := heq
    rw [show getMessagesSince ⟨[⟨"r", 0, 100⟩],
        [⟨"r", 2, 0, [3], [4], "MSG"⟩, ⟨"r", 1, 0, [1], [2], "MSG"⟩]⟩ 0 "r" 1 =
        .ok [⟨"r", 2, 0, [3], [4], "MSG"⟩] from by rfl] at this
    exact (Except.ok.inj this).symm
  refine ⟨hrows ▸ heq, ?_⟩
  have := (hmem ⟨"r", 2, 0, [3], [4], "MSG"⟩).mpr ⟨by simp, rfl, by decide⟩
  exact hrows ▸ this

/-- Counterexample for C5: connecting with `after_seq = 5` and then
sending `READY lastSeenSeq = 2` lowers the watermark to 2 — the replay
returns the row with `seq = 3`, whereas replay from `max(5, 2) = 5` would
return nothing. -/
theorem c5_ready_lowers_watermark_counterexample :
    readyWatermark 5 (.ok 2) = 2 ∧
    readyReplayRows ⟨[⟨"r", 0, 100⟩], [⟨"r", 3, 0, [1], [2], "MSG"⟩]⟩ 0 "r" 5
        (.ok 2) = .ok [⟨"r", 3, 0, [1], [2], "MSG"⟩] ∧
    getMessagesSince ⟨[⟨"r", 0, 100⟩], [⟨"r", 3, 0, [1], [2], "MSG"⟩]⟩ 0 "r"
        (max 5 2) = .ok [] :=
  ⟨rfl, rfl, rfl⟩

/-- C5 (amended) — a `READY` payload that parses with `lastSeenSeq > 0`
overwrites the watermark with that value (it may lower it below the value
parsed at connection time); with `lastSeenSeq ≤ 0` or an unparseable
payload the watermark is kept.  In particular, when `0 ≤ S ≤ S'` the
history replay does start from `max(S, S')`. -/
theorem c5_ready_watermark (S Sp : Int) (db : DB) (now : Int)
    (token : String) :
    (0 < Sp → readyWatermark S (.ok Sp) = Sp)
    ∧ (Sp ≤ 0 → readyWatermark S (.ok Sp) = S)
    ∧ readyWatermark S .failed = S
    ∧ (0 ≤ S → S ≤ Sp →
        readyReplayRows db now token S (.ok Sp) =
          getMessagesSince db now token (max S Sp)) := by
  refine ⟨?_, ?_, rfl, ?_⟩
  · intro h
    simp [readyWatermark, h]
  · intro h
    simp [readyWatermark, not_lt.mpr h]
  · intro h1 h2
    unfold readyReplayRows
    rw [max_eq_right h2]
    by_cases h3 : 0 < Sp
    · simp [readyWatermark, h3]
    · have hse : S = Sp := by omega
      simp [readyWatermark, h3, hse]

/-- Witness for C5 (amended): raising from `S = 1` to `S' = 2` replays
from `max(1, 2)`. -/
theorem c5_ready_watermark_witness :
    readyWatermark 1 (.ok 2) = 2 ∧
    readyReplayRows ⟨[⟨"r", 0, 100⟩], []⟩ 0 "r" 1 (.ok 2) =
      getMessagesSince ⟨[⟨"r", 0, 100⟩], []⟩ 0 "r" (max 1 2) :=
  have h := c5_ready_watermark 1 2 ⟨[⟨"r", 0, 100⟩], []⟩ 0 "r"
  ⟨h.1 (by decide), h.2.2.2 (by decide) (by decide)⟩

/-- Counterexample for C6: a `MSG` frame whose payload fails to unmarshal
(`json.Unmarshal` error on `d`) is dropped silently — no `ERROR` frame is
sent to the sender, contrary to the claim. -/
theorem c6_unparseable_payload_counterexample :
    readerStep ⟨[⟨"r", 0, 100⟩], []⟩ 0 "r" 0 (.envelope "MSG" .failed .failed)
      = .dropSilent ∧
    Action.dropSilent ≠ Action.replyError "MSG_REJECTED" "invalid or duplicate seq" :=
  ⟨rfl, fun h => Action.noConfusion h⟩

theorem persisted_ne_ready {t : String}
    (ht : persistedTypes.contains t = true) : t ≠ "" ∧ t ≠ "READY" := by
  have hmem : t ∈ persistedTypes := List.elem_iff.mp ht
  simp only [persistedTypes, List.mem_cons, List.not_mem_nil, or_false] at hmem
  rcases hmem with rfl | rfl | rfl | rfl <;> exact ⟨by decide, by decide⟩

/-- C6 (amended) — for a persisted-type frame in a live room whose payload
struct unmarshals, a negative `seq`, a missing nonce/ciphertext field, or
a base64-undecodable nonce/ciphertext draws a per-sender
`ERROR`/`MSG_REJECTED` reply (the connection is not closed, nothing is
persisted or fanned out — the action is the reply alone); a payload that
fails to unmarshal is instead dropped silently. -/
theorem c6_malformed_field_error (db : DB) (now : Int) (token : String)
    (ls : Int) (t : String) (p : MsgPayload) (r : ReadyParse)
    (hlive : roomExists db now token = true)
    (ht : persistedTypes.contains t = true) :
    (p.seq < 0 ∨ effectiveField p.nonce p.n = [] ∨
        effectiveField p.ciphertext p.c = [] →
      readerStep db now token ls (.envelope t (.ok p) r) =
        .replyError "MSG_REJECTED" "invalid sequence or payload")
    ∧ (¬(p.seq < 0 ∨ effectiveField p.nonce p.n = [] ∨
          effectiveField p.ciphertext p.c = []) →
        decodeBase64 (effectiveField p.nonce p.n) = none →
        readerStep db now token ls (.envelope t (.ok p) r) =
          .replyError "MSG_REJECTED" "invalid or duplicate seq")
    ∧ (∀ nb, ¬(p.seq < 0 ∨ effectiveField p.nonce p.n = [] ∨
          effectiveField p.ciphertext p.c = []) →
        decodeBase64 (effectiveField p.nonce p.n) = some nb →
        decodeBase64 (effectiveField p.ciphertext p.c) = none →
        readerStep db now token ls (.envelope t (.ok p) r) =
          .replyError "MSG_REJECTED" "invalid or duplicate seq")
    ∧ readerStep db now token ls (.envelope t .failed r) = .dropSilent := by
  obtain ⟨ht1, ht2⟩ := persisted_ne_ready ht
  have hgate : ¬(!roomExists db now token) = true := by simp [hlive]
  refine ⟨?_, ?_, ?_, ?_⟩
  · intro hbad
    simp only [readerStep]
    rw [if_neg hgate, if_neg ht1, if_neg ht2, if_pos ht, if_pos hbad]
  · intro hval hdec
    simp only [readerStep]
    rw [if_neg hgate, if_neg ht1, if_neg ht2, if_pos ht, if_neg hval]
    simp only [hdec]
  · intro nb hval hnb hdec
    simp only [readerStep]
    rw [if_neg hgate, if_neg ht1, if_neg ht2, if_pos ht, if_neg hval]
    simp only [hnb, hdec]
  · simp only [readerStep]
    rw [if_neg hgate, if_neg ht1, if_neg ht2, if_pos ht]

/-- Witness for C6 (amended): an `IMG_CHUNK` payload with an empty nonce
is answered with `MSG_REJECTED`. -/
theorem c6_malformed_field_error_witness :
    readerStep ⟨[⟨"r", 0, 100⟩], []⟩ 0 "r" 0
        (.envelope "IMG_CHUNK" (.ok ⟨0, [], [], 1, [], "AAAA".toList⟩) .failed)
      = .replyError "MSG_REJECTED" "invalid sequence or payload" :=
  (c6_malformed_field_error ⟨[⟨"r", 0, 100⟩], []⟩ 0 "r" 0 "IMG_CHUNK"
      ⟨0, [], [], 1, [], "AAAA".toList⟩ .failed (by rfl) (by decide)).1
    (by right; left; rfl)

/-- Counterexample for C7: an envelope with the unlisted type tag
`"BOGUS"` is not dropped — the reader loop relays it verbatim to the
peers. -/
theorem c7_unknown_type_relayed_counterexample :
    readerStep ⟨[⟨"r", 0, 100⟩], []⟩ 0 "r" 0
        (.envelope "BOGUS" .failed .failed) = .relayVerbatim ∧
    Action.relayVerbatim ≠ Action.dropSilent :=
  ⟨rfl, fun h => Action.noConfusion h⟩

/-- C7 (amended) — in a live room, every envelope whose type tag is
non-empty and is neither `READY` nor one of the persisted types is relayed
verbatim to the peers (not persisted, not dropped); only frames with
invalid JSON or an empty/missing `t` are silently dropped. -/
theorem c7_unlisted_types_relayed (db : DB) (now : Int) (token : String)
    (ls : Int) (t : String) (d : PayloadParse) (r : ReadyParse)
    (hlive : roomExists db now token = true) (h1 : t ≠ "")
    (h2 : t ≠ "READY") (h3 : persistedTypes.contains t = false) :
    readerStep db now token ls (.envelope t d r) = .relayVerbatim
    ∧ readerStep db now token ls (.envelope "" d r) = .dropSilent
    ∧ readerStep db now token ls .invalidJson = .dropSilent := by
  have hgate : ¬(!roomExists db now token) = true := by simp [hlive]
  refine ⟨?_, ?_, ?_⟩
  · simp only [readerStep]
    rw [if_neg hgate, if_neg h1, if_neg h2,
      if_neg (fun hc => by rw [h3] at hc; cases hc)]
  · simp only [readerStep]
    rw [if_neg hgate]
    simp
  · simp only [readerStep]
    rw [if_neg hgate]

/-- Witness for C7 (amended): `HELLO` — an allowed but unlisted type — is
fanned out verbatim. -/
theorem c7_unlisted_types_relayed_witness :
    readerStep ⟨[⟨"r", 0, 100⟩], []⟩ 0 "r" 0
      (.envelope "HELLO" .failed .failed) = .relayVerbatim :=
  (c7_unlisted_types_relayed ⟨[⟨"r", 0, 100⟩], []⟩ 0 "r" 0 "HELLO"
    .failed .failed (by rfl) (by decide) (by decide) (by decide)).1

/-- C10 — when both `after_seq` and `after` parse as non-negative
integers, `after` wins; an unparseable or negative value in either
parameter is ignored, leaving the watermark at the other parameter's value
or at 0. -/
theorem c10_after_overrides_after_seq (a b : List Char) :
    (∀ va vb : Int, goAtoi a = some va → 0 ≤ va → goAtoi b = some vb →
      0 ≤ vb → watermarkFromQuery a b = vb)
    ∧ (∀ va : Int, goAtoi a = some va → 0 ≤ va →
        (goAtoi b = none ∨ ∃ vb : Int, goAtoi b = some vb ∧ vb < 0) →
        watermarkFromQuery a b = va)
    ∧ (∀ vb : Int, goAtoi b = some vb → 0 ≤ vb →
        (goAtoi a = none ∨ ∃ va : Int, goAtoi a = some va ∧ va < 0) →
        watermarkFromQuery a b = vb)
    ∧ ((goAtoi a = none ∨ ∃ va : Int, goAtoi a = some va ∧ va < 0) →
        (goAtoi b = none ∨ ∃ vb : Int, goAtoi b = some vb ∧ vb < 0) →
        watermarkFromQuery a b = 0) := by
  have hnil : goAtoi ([] : List Char) = none := rfl
  have hAint : ∀ (s : List Char) (v : Int), goAtoi s = some v → s ≠ [] :=
    fun s v hv hs => by rw [hs, hnil] at hv; cases hv
  refine ⟨?_, ?_, ?_, ?_⟩
  · intro va vb hva hva0 hvb hvb0
    simp [watermarkFromQuery, hAint a va hva, hAint b vb hvb, hva, hvb,
      hva0, hvb0]
  · intro va hva hva0 hb
    rcases hb with hb | ⟨vb, hvb, hvb0⟩
    · by_cases hbe : b = []
      · subst hbe
        simp [watermarkFromQuery, hAint a va hva, hva, hva0]
      · simp [watermarkFromQuery, hAint a va hva, hbe, hva, hva0, hb]
    · simp [watermarkFromQuery, hAint a va hva, hAint b vb hvb, hva, hva0,
        hvb, not_le.mpr hvb0]
  · intro vb hvb hvb0 ha
    rcases ha with ha | ⟨va, hva, hva0⟩
    · by_cases hae : a = []
      · subst hae
        simp [watermarkFromQuery, hAint b vb hvb, hvb, hvb0]
      · simp [watermarkFromQuery, hAint b vb hvb, hae, ha, hvb, hvb0]
    · simp [watermarkFromQuery, hAint a va hva, hAint b vb hvb, hva,
        not_le.mpr hva0, hvb, hvb0]
  · intro ha hb
    rcases ha with ha | ⟨va, hva, hva0⟩ <;> rcases hb with hb | ⟨vb, hvb, hvb0⟩
    · by_cases hae : a = [] <;> by_cases hbe : b = [] <;>
        simp [watermarkFromQuery, hae, hbe, ha, hb]
    · by_cases hae : a = [] <;>
        simp [watermarkFromQuery, hae, hAint b vb hvb, ha, hvb,
          not_le.mpr hvb0]
    · by_cases hbe : b = [] <;>
        simp [watermarkFromQuery, hbe, hAint a va hva, hva, hb,
          not_le.mpr hva0]
    · simp [watermarkFromQuery, hAint a va hva, hAint b vb hvb, hva, hvb,
        not_le.mpr hva0, not_le.mpr hvb0]

/-- Witness for C10: `after_seq=5` with `after=7` replays from 7. -/
theorem c10_after_overrides_after_seq_witness :
    watermarkFromQuery "5".toList "7".toList = 7 :=
  (c10_after_overrides_after_seq "5".toList "7".toList).1 5 7
    (by rfl) (by decide) (by rfl) (by decide)

/-! ### Migration-runner lemmas -/

theorem le_foldlMaxBy {α : Type} (f : α → Int) :
    ∀ (l : List α) (a : Int), a ≤ l.foldl (fun acc x => max acc (f x)) a
  | [], _ => le_refl _
  | x :: xs, a => le_trans (le_max_left a (f x)) (le_foldlMaxBy f xs _)

theorem mem_le_foldlMaxBy {α : Type} (f : α → Int) (x : α) :
    ∀ (l : List α) (a : Int), x ∈ l →
      f x ≤ l.foldl (fun acc y => max acc (f y)) a
  | [], _, hx => absurd hx (List.not_mem_nil x)
  | y :: ys, a, hx => by
    rcases List.mem_cons.mp hx with h | h
    · subst h
      exact le_trans (le_max_right a (f x)) (le_foldlMaxBy f ys _)
    · exact mem_le_foldlMaxBy f x ys _ h

theorem foldlMaxBy_lt {α : Type} (f : α → Int) (c : Int) :
    ∀ (l : List α) (a : Int), a < c → (∀ x ∈ l, f x < c) →
      l.foldl (fun acc x => max acc (f x)) a < c
  | [], _, ha, _ => ha
  | x :: xs, a, ha, hl => by
    refine foldlMaxBy_lt f c xs _ ?_ (fun y hy => hl y (List.mem_cons_of_mem x hy))
    exact max_lt ha (hl x (List.mem_cons_self x xs))

/-- Closed form of the pending-migration loop: it applies the longest
all-succeeding first segment atomically row-by-row, and reports the first
failing migration, if any. -/
theorem runPending_eq (fails : Int → Bool) :
    ∀ (ms : List Migration) (st : MigDB),
      runPending fails ms st =
        (addApplied st (ms.takeWhile (fun m => !fails m.version)),
         match ms.dropWhile (fun m => !fails m.version) with
         | [] => none
         | m :: _ => some (.applyFailed m.version m.name))
  | [], st => by simp [runPending, versionsOf, addApplied]
  | m :: rest, st => by
    by_cases hf : fails m.version
    · simp [runPending, applyMigration, hf, versionsOf, addApplied]
    · have ih := runPending_eq fails rest
        { applied := st.applied ++ [(m.version, m.name)]
          schemaOps := st.schemaOps ++ [m.version] }
      simp only [runPending, applyMigration, hf, Bool.not_false, if_false,
        Bool.false_eq_true, ite_false, List.takeWhile_cons, List.dropWhile_cons]
      simp only [hf, Bool.not_false, ite_true, if_true, Bool.false_eq_true]
      rw [ih]
      simp [versionsOf, addApplied]

theorem takeWhile_all_true (p : Migration → Bool) :
    ∀ ms : List Migration, (∀ m ∈ ms, p m = true) →
      ms.takeWhile p = ms ∧ ms.dropWhile p = []
  | [], _ => ⟨rfl, rfl⟩
  | m :: rest, h => by
    have hm := h m (List.mem_cons_self m rest)
    have ih := takeWhile_all_true p rest
      (fun x hx => h x (List.mem_cons_of_mem m hx))
    simp [List.takeWhile_cons, List.dropWhile_cons, hm, ih.1, ih.2]

theorem takeWhile_first_fail (p : Migration → Bool) :
    ∀ (good : List Migration) (mf : Migration) (rest : List Migration),
      (∀ m ∈ good, p m = true) → p mf = false →
      (good ++ mf :: rest).takeWhile p = good ∧
      (good ++ mf :: rest).dropWhile p = mf :: rest
  | [], mf, rest, _, hmf => by
    simp [List.takeWhile_cons, List.dropWhile_cons, hmf]
  | g :: good, mf, rest, hgood, hmf => by
    have hg := hgood g (List.mem_cons_self g good)
    have ih := takeWhile_first_fail p good mf rest
      (fun x hx => hgood x (List.mem_cons_of_mem g hx)) hmf
    simp [List.takeWhile_cons, List.dropWhile_cons, hg, ih.1, ih.2]

/-- C8 — `Run()` applies exactly the migration files whose version exceeds
`COALESCE(MAX(version), 0)` over `schema_migrations`, in ascending version
order, each atomically together with its tracking row; a second invocation
applies nothing further (exactly-once across invocations), and a failing
file is rolled back entirely — neither its SQL trace nor its tracking row
lands — aborting the run so that the next run retries from the same
version. -/
theorem c8_migration_run (files : List (List Char)) (fails : Int → Bool)
    (st : MigDB) (migs : List Migration)
    (hdisc : discoverMigrations files = .ok migs)
    (hnodup : (versionsOf migs).Nodup) :
    List.Pairwise (· < ·) (versionsOf ((sortMigrations migs).filter
      (fun m => appliedHead st < m.version)))
    ∧ (∀ m ∈ (sortMigrations migs).filter
        (fun m => appliedHead st < m.version), appliedHead st < m.version)
    ∧ ((∀ m ∈ (sortMigrations migs).filter
          (fun m => appliedHead st < m.version), fails m.version = false) →
        migrationsRun files fails st =
          (addApplied st ((sortMigrations migs).filter
            (fun m => appliedHead st < m.version)), none)
        ∧ migrationsRun files fails (migrationsRun files fails st).1 =
            ((migrationsRun files fails st).1, none))
    ∧ (∀ good mf rest,
        (sortMigrations migs).filter (fun m => appliedHead st < m.version) =
          good ++ mf :: rest →
        (∀ m ∈ good, fails m.version = false) → fails mf.version = true →
        migrationsRun files fails st =
          (addApplied st good, some (.applyFailed mf.version mf.name))
        ∧ mf.version ∉ versionsOf good
        ∧ (sortMigrations migs).filter
            (fun m => appliedHead (addApplied st good) < m.version) =
          mf :: rest) := by
  have hsortedle : List.Pairwise (fun a b : Migration =>
      a.version ≤ b.version) (sortMigrations migs) := by
    have := @List.sorted_mergeSort Migration
      (fun a b : Migration => decide (a.version ≤ b.version))
      (fun a b c hab hbc => by
        simp only [decide_eq_true_eq] at hab hbc ⊢; omega)
      (fun a b => by
        simp only [Bool.or_eq_true, decide_eq_true_eq]; omega)
      migs
    exact this.imp (fun h => by simpa using h)
  have hnodup' : (versionsOf (sortMigrations migs)).Nodup := by
    have hperm : (sortMigrations migs).Perm migs :=
      List.mergeSort_perm migs _
    have hperm2 : (versionsOf (sortMigrations migs)).Perm (versionsOf migs) := by
      simp only [versionsOf]
      exact hperm.map _
    exact hperm2.nodup_iff.mpr hnodup
  have hltall : List.Pairwise (· < ·) (versionsOf (sortMigrations migs)) := by
    have hle : List.Pairwise (· ≤ ·) (versionsOf (sortMigrations migs)) :=
      List.pairwise_map.mpr hsortedle
    exact (hle.and hnodup').imp (fun h => lt_of_le_of_ne h.1 h.2)
  have hpw : List.Pairwise (· < ·) (versionsOf ((sortMigrations migs).filter
      (fun m => appliedHead st < m.version))) :=
    hltall.sublist ((List.filter_sublist _).map _)
  have hmemgt : ∀ m ∈ (sortMigrations migs).filter
      (fun m => appliedHead st < m.version), appliedHead st < m.version :=
    fun m hm => by simpa using (List.mem_filter.mp hm).2
  have hrunst : migrationsRun files fails st =
      runPending fails ((sortMigrations migs).filter
        (fun m => appliedHead st < m.version)) st := by
    simp [migrationsRun, hdisc]
  have happend : ∀ (ms : List Migration),
      (addApplied st ms).applied.foldl (fun a p => max a p.1) 0 =
        (ms.map (fun m => (m.version, m.name))).foldl
          (fun a p => max a p.1) (appliedHead st) := by
    intro ms
    show (st.applied ++ _).foldl (fun a p => max a p.1) 0 = _
    rw [List.foldl_append]
    rfl
  refine ⟨hpw, hmemgt, ?_, ?_⟩
  · intro hok
    obtain ⟨htake, hdrop⟩ := takeWhile_all_true
      (fun m => !fails m.version)
      ((sortMigrations migs).filter (fun m => appliedHead st < m.version))
      (fun m hm => by simp [hok m hm])
    have hrun := runPending_eq fails
      ((sortMigrations migs).filter (fun m => appliedHead st < m.version)) st
    rw [htake, hdrop] at hrun
    have hres : migrationsRun files fails st =
        (addApplied st ((sortMigrations migs).filter
          (fun m => appliedHead st < m.version)), none) := by
      rw [hrunst, hrun]
    refine ⟨hres, ?_⟩
    rw [hres]
    have hhead : ∀ m ∈ sortMigrations migs,
        ¬ appliedHead (addApplied st ((sortMigrations migs).filter
          (fun m => appliedHead st < m.version))) < m.version := by
      intro m hm
      rw [not_lt]
      show m.version ≤ (addApplied st _).applied.foldl (fun a p => max a p.1) 0
      rw [happend]
      by_cases hv : appliedHead st < m.version
      · have hmem : (m.version, m.name) ∈ ((sortMigrations migs).filter
            (fun m => appliedHead st < m.version)).map
              (fun m => (m.version, m.name)) :=
          List.mem_map.mpr ⟨m, List.mem_filter.mpr ⟨hm, by simpa using hv⟩, rfl⟩
        exact mem_le_foldlMaxBy (fun p : Int × List Char => p.1) (m.version, m.name) _ _ hmem
      · exact le_trans (not_lt.mp hv) (le_foldlMaxBy (fun p : Int × List Char => p.1) _ _)
    have hpend2 : (sortMigrations migs).filter (fun m =>
        appliedHead (addApplied st ((sortMigrations migs).filter
          (fun m => appliedHead st < m.version))) < m.version) = [] :=
      List.filter_eq_nil_iff.mpr (fun m hm => by simpa using hhead m hm)
    simp [migrationsRun, hdisc, hpend2, runPending]
  · intro good mf rest hpend hgood hmf
    have hcross : ∀ v ∈ versionsOf good,
        ∀ w ∈ mf.version :: versionsOf rest, v < w := by
      have hpw2 := hpend ▸ hpw
      rw [show versionsOf (good ++ mf :: rest) =
          versionsOf good ++ mf.version :: versionsOf rest by
        simp [versionsOf]] at hpw2
      exact fun v hv w hw => (List.pairwise_append.mp hpw2).2.2 v hv w hw
    have hnotin : mf.version ∉ versionsOf good := by
      intro hmem
      exact lt_irrefl mf.version
        (hcross mf.version hmem mf.version (List.mem_cons_self _ _))
    obtain ⟨htake, hdrop⟩ := takeWhile_first_fail
      (fun m => !fails m.version) good mf rest
      (fun m hm => by simp [hgood m hm]) (by simp [hmf])
    have hrun := runPending_eq fails
      ((sortMigrations migs).filter (fun m => appliedHead st < m.version)) st
    rw [hpend, htake, hdrop] at hrun
    have hres : migrationsRun files fails st =
        (addApplied st good, some (.applyFailed mf.version mf.name)) := by
      rw [hrunst, hpend, hrun]
    refine ⟨hres, hnotin, ?_⟩
    have hgood_lt : ∀ v ∈ versionsOf good, v < mf.version :=
      fun v hv => hcross v hv mf.version (List.mem_cons_self _ _)
    have hheadlt : ∀ w : Int, appliedHead st < w →
        (∀ v ∈ versionsOf good, v < w) →
        appliedHead (addApplied st good) < w := by
      intro w hw hgw
      show (addApplied st good).applied.foldl (fun a p => max a p.1) 0 < w
      rw [happend]
      refine foldlMaxBy_lt (fun p : Int × List Char => p.1) w _ _ hw ?_
      intro x hx
      obtain ⟨m, hm, hxm⟩ := List.mem_map.mp hx
      subst hxm
      exact hgw m.version (List.mem_map.mpr ⟨m, hm, rfl⟩)
    have hmf_pend : mf ∈ (sortMigrations migs).filter
        (fun m => appliedHead st < m.version) := by
      rw [hpend]
      exact List.mem_append_right _ (List.mem_cons_self _ _)
    have hheadmf : appliedHead (addApplied st good) < mf.version :=
      hheadlt mf.version (hmemgt mf hmf_pend) hgood_lt
    have hheadrest : ∀ m ∈ rest,
        appliedHead (addApplied st good) < m.version := by
      intro m hm
      refine hheadlt m.version
        (hmemgt m (by rw [hpend]
                      exact List.mem_append_right _
                        (List.mem_cons_of_mem mf hm))) ?_
      intro v hv
      refine hcross v hv m.version (List.mem_cons_of_mem _ ?_)
      show m.version ∈ versionsOf rest
      simp only [versionsOf, List.mem_map]
      exact ⟨m, hm, rfl⟩
    have hheadgood : ∀ m ∈ good,
        ¬ appliedHead (addApplied st good) < m.version := by
      intro m hm
      rw [not_lt]
      show m.version ≤ (addApplied st good).applied.foldl
        (fun a p => max a p.1) 0
      rw [happend]
      exact mem_le_foldlMaxBy (fun p : Int × List Char => p.1) (m.version, m.name) _ _
        (List.mem_map.mpr ⟨m, hm, rfl⟩)
    have hstle : appliedHead st ≤ appliedHead (addApplied st good) := by
      show _ ≤ (addApplied st good).applied.foldl (fun a p => max a p.1) 0
      rw [happend]
      exact le_foldlMaxBy (fun p : Int × List Char => p.1) _ _
    have hstep1 : (sortMigrations migs).filter
        (fun m => appliedHead (addApplied st good) < m.version) =
        ((sortMigrations migs).filter
          (fun m => appliedHead st < m.version)).filter
            (fun m => appliedHead (addApplied st good) < m.version) := by
      rw [List.filter_filter]
      refine (List.filter_congr ?_)
      intro m hm
      by_cases hc : appliedHead (addApplied st good) < m.version
      · have hc2 : appliedHead st < m.version := lt_of_le_of_lt hstle hc
        simp [hc, hc2]
      · simp [hc]
    rw [hstep1, hpend, List.filter_append,
      List.filter_eq_nil_iff.mpr (fun m hm => by
        simpa using hheadgood m hm),
      List.filter_cons_of_pos (by simpa using hheadmf),
      List.filter_eq_self.mpr (fun m hm => by
        simpa using hheadrest m hm)]
    rfl

/-- Witness for C8: on a fresh tracking table, a directory with versions 1
and 2 and no SQL failures applies both migrations, and a second run
applies nothing further. -/
theorem c8_migration_run_witness :
    migrationsRun ["001_rooms.sql".toList, "002_messages.sql".toList]
        (fun _ => false) ⟨[], []⟩ =
      (addApplied ⟨[], []⟩
        ((sortMigrations [⟨1, "rooms".toList, "001_rooms.sql".toList⟩,
          ⟨2, "messages".toList, "002_messages.sql".toList⟩]).filter
            (fun m => appliedHead ⟨[], []⟩ < m.version)), none) ∧
    migrationsRun ["001_rooms.sql".toList, "002_messages.sql".toList]
        (fun _ => false)
        (migrationsRun ["001_rooms.sql".toList, "002_messages.sql".toList]
          (fun _ => false) ⟨[], []⟩).1 =
      ((migrationsRun ["001_rooms.sql".toList, "002_messages.sql".toList]
          (fun _ => false) ⟨[], []⟩).1, none) :=
  (c8_migration_run ["001_rooms.sql".toList, "002_messages.sql".toList]
    (fun _ => false) ⟨[], []⟩
    [⟨1, "rooms".toList, "001_rooms.sql".toList⟩,
     ⟨2, "messages".toList, "002_messages.sql".toList⟩]
    (by rfl) (by decide)).2.2.1 (fun m _ => rfl)

/-! ### Base64 lemmas -/

theorem stdMatch : ∀ i : Nat, i < 64 →
    b64DecodeChar stdAlphabet (stdAlphabet.getD i ' ') = some i := by
  have h : ∀ i : Fin 64,
      b64DecodeChar stdAlphabet (stdAlphabet.getD i.val ' ') = some i.val := by
    decide
  intro i hi
  exact h ⟨i, hi⟩

theorem urlMatch : ∀ i : Nat, i < 64 →
    b64DecodeChar urlAlphabet (urlAlphabet.getD i ' ') = some i := by
  have h : ∀ i : Fin 64,
      b64DecodeChar urlAlphabet (urlAlphabet.getD i.val ' ') = some i.val := by
    decide
  intro i hi
  exact h ⟨i, hi⟩

theorem stdUrlMix : ∀ i : Nat, i < 64 →
    b64DecodeChar stdAlphabet (urlAlphabet.getD i ' ') = some i ∨
    b64DecodeChar stdAlphabet (urlAlphabet.getD i ' ') = none := by
  have h : ∀ i : Fin 64,
      b64DecodeChar stdAlphabet (urlAlphabet.getD i.val ' ') = some i.val ∨
      b64DecodeChar stdAlphabet (urlAlphabet.getD i.val ' ') = none := by
    decide
  intro i hi
  exact h ⟨i, hi⟩

theorem urlStdMix : ∀ i : Nat, i < 64 →
    b64DecodeChar urlAlphabet (stdAlphabet.getD i ' ') = some i ∨
    b64DecodeChar urlAlphabet (stdAlphabet.getD i ' ') = none := by
  have h : ∀ i : Fin 64,
      b64DecodeChar urlAlphabet (stdAlphabet.getD i.val ' ') = some i.val ∨
      b64DecodeChar urlAlphabet (stdAlphabet.getD i.val ' ') = none := by
    decide
  intro i hi
  exact h ⟨i, hi⟩

theorem stdNePad : ∀ i : Nat, i < 64 → stdAlphabet.getD i ' ' ≠ '=' := by
  have h : ∀ i : Fin 64, stdAlphabet.getD i.val ' ' ≠ '=' := by decide
  intro i hi
  exact h ⟨i, hi⟩

theorem urlNePad : ∀ i : Nat, i < 64 → urlAlphabet.getD i ' ' ≠ '=' := by
  have h : ∀ i : Fin 64, urlAlphabet.getD i.val ' ' ≠ '=' := by decide
  intro i hi
  exact h ⟨i, hi⟩

theorem stdDecPad : b64DecodeChar stdAlphabet '=' = none := by decide

theorem urlDecPad : b64DecodeChar urlAlphabet '=' = none := by decide

/-- Padding is irrelevant when the byte count is a multiple of 3. -/
theorem b64Encode_pad_eq_raw (A : List Char) :
    ∀ l : List Nat, l.length % 3 = 0 →
      b64Encode A true l = b64Encode A false l
  | [], _ => rfl
  | [_], h => by simp at h
  | [_, _], h => by simp at h
  | b1 :: b2 :: b3 :: rest, h => by
    have hr : rest.length % 3 = 0 := by
      simp only [List.length_cons] at h
      omega
    simp only [b64Encode]
    rw [b64Encode_pad_eq_raw A rest hr]

theorem b64Encode_ne_nil (A : List Char) (pad : Bool) :
    ∀ l : List Nat, l ≠ [] → b64Encode A pad l ≠ []
  | [], h => absurd rfl h
  | [_], _ => by simp [b64Encode]
  | [_, _], _ => by simp [b64Encode]
  | _ :: _ :: _ :: _, _ => by simp [b64Encode]

/-- Decoding with the matching alphabet inverts padded encoding. -/
theorem decodePadded_encode (A B : List Char)
    (hmatch : ∀ i : Nat, i < 64 → b64DecodeChar B (A.getD i ' ') = some i)
    (hne : ∀ i : Nat, i < 64 → A.getD i ' ' ≠ '=') :
    ∀ l : List Nat, (∀ b ∈ l, b < 256) →
      b64DecodePadded B (b64Encode A true l) = some l
  | [], _ => rfl
  | [b1], hb => by
    have h1 : b1 < 256 := hb b1 (by simp)
    have e1 := hmatch (b1 / 4) (by omega)
    have e2 := hmatch (b1 % 4 * 16) (by omega)
    simp only [b64Encode, if_true]
    simp only [b64DecodePadded, e1, e2]
    simp only [and_self, if_true]
    simp only [Option.some.injEq, List.cons.injEq, and_true]
    omega
  | [b1, b2], hb => by
    have h1 : b1 < 256 := hb b1 (by simp)
    have h2 : b2 < 256 := hb b2 (by simp)
    have e1 := hmatch (b1 / 4) (by omega)
    have e2 := hmatch (b1 % 4 * 16 + b2 / 16) (by omega)
    have e3 := hmatch (b2 % 16 * 4) (by omega)
    simp only [b64Encode, if_true]
    simp only [b64DecodePadded, e1, e2]
    rw [if_neg (hne (b2 % 16 * 4) (by omega))]
    simp only [e3]
    simp only [if_true]
    simp only [Option.some.injEq, List.cons.injEq, and_true]
    refine ⟨by omega, by omega⟩
  | b1 :: b2 :: b3 :: rest, hb => by
    have h1 : b1 < 256 := hb b1 (by simp)
    have h2 : b2 < 256 := hb b2 (by simp)
    have h3 : b3 < 256 := hb b3 (by simp)
    have e1 := hmatch (b1 / 4) (by omega)
    have e2 := hmatch (b1 % 4 * 16 + b2 / 16) (by omega)
    have e3 := hmatch (b2 % 16 * 4 + b3 / 64) (by omega)
    have e4 := hmatch (b3 % 64) (by omega)
    have ih := decodePadded_encode A B hmatch hne rest
      (fun b hbm => hb b (by simp [hbm]))
    simp only [b64Encode, b64DecodePadded, e1, e2]
    rw [if_neg (hne (b2 % 16 * 4 + b3 / 64) (by omega))]
    simp only [e3]
    rw [if_neg (hne (b3 % 64) (by omega))]
    simp only [e4, ih, Option.map_some', Option.some.injEq, List.cons.injEq,
      and_true, eq_self_iff_true, true_and]
    omega

/-- Decoding with the matching alphabet inverts raw encoding. -/
theorem decodeRaw_encode (A B : List Char)
    (hmatch : ∀ i : Nat, i < 64 → b64DecodeChar B (A.getD i ' ') = some i) :
    ∀ l : List Nat, (∀ b ∈ l, b < 256) →
      b64DecodeRaw B (b64Encode A false l) = some l
  | [], _ => rfl
  | [b1], hb => by
    have h1 : b1 < 256 := hb b1 (by simp)
    have e1 := hmatch (b1 / 4) (by omega)
    have e2 := hmatch (b1 % 4 * 16) (by omega)
    simp only [b64Encode, if_false]
    simp only [b64DecodeRaw, e1, e2, Option.some.injEq, List.cons.injEq,
      and_true]
    omega
  | [b1, b2], hb => by
    have h1 : b1 < 256 := hb b1 (by simp)
    have h2 : b2 < 256 := hb b2 (by simp)
    have e1 := hmatch (b1 / 4) (by omega)
    have e2 := hmatch (b1 % 4 * 16 + b2 / 16) (by omega)
    have e3 := hmatch (b2 % 16 * 4) (by omega)
    simp only [b64Encode, if_false]
    simp only [b64DecodeRaw, e1, e2, e3, Option.some.injEq, List.cons.injEq,
      and_true]
    refine ⟨by omega, by omega⟩
  | b1 :: b2 :: b3 :: rest, hb => by
    have h1 : b1 < 256 := hb b1 (by simp)
    have h2 : b2 < 256 := hb b2 (by simp)
    have h3 : b3 < 256 := hb b3 (by simp)
    have e1 := hmatch (b1 / 4) (by omega)
    have e2 := hmatch (b1 % 4 * 16 + b2 / 16) (by omega)
    have e3 := hmatch (b2 % 16 * 4 + b3 / 64) (by omega)
    have e4 := hmatch (b3 % 64) (by omega)
    have ih := decodeRaw_encode A B hmatch rest
      (fun b hbm => hb b (by simp [hbm]))
    cases rest with
    | nil =>
      simp only [b64Encode, b64DecodeRaw, e1, e2, e3, e4, Option.map_some',
        Option.some.injEq, List.cons.injEq, and_true, eq_self_iff_true,
        true_and]
      omega
    | cons r rs =>
      have henc : b64Encode A false (r :: rs) ≠ [] :=
        b64Encode_ne_nil A false (r :: rs) (by simp)
      simp only [b64Encode]
      cases hE : b64Encode A false (r :: rs) with
      | nil => exact absurd hE henc
      | cons c cs =>
        simp only [b64DecodeRaw, e1, e2, e3, e4]
        rw [← hE, ih]
        simp only [Option.map_some', Option.some.injEq, List.cons.injEq,
          and_true, eq_self_iff_true, true_and]
        omega

/-- Decoding a padded encoding with a foreign alphabet either fails or
recovers exactly the original bytes (shared characters carry the same
6-bit value in both alphabets). -/
theorem decodePadded_encode_mix (A B : List Char)
    (hmix : ∀ i : Nat, i < 64 → b64DecodeChar B (A.getD i ' ') = some i ∨
      b64DecodeChar B (A.getD i ' ') = none)
    (hne : ∀ i : Nat, i < 64 → A.getD i ' ' ≠ '=') :
    ∀ l : List Nat, (∀ b ∈ l, b < 256) →
      b64DecodePadded B (b64Encode A true l) = some l ∨
      b64DecodePadded B (b64Encode A true l) = none
  | [], _ => .inl rfl
  | [b1], hb => by
    have h1 : b1 < 256 := hb b1 (by simp)
    rcases hmix (b1 / 4) (by omega) with e1 | e1
    · rcases hmix (b1 % 4 * 16) (by omega) with e2 | e2
      · left
        simp only [b64Encode, if_true, b64DecodePadded, e1, e2, and_self,
          Option.some.injEq, List.cons.injEq, and_true]
        omega
      · right
        simp only [b64Encode, if_true, b64DecodePadded, e1, e2]
    · right
      simp only [b64Encode, if_true, b64DecodePadded, e1]
  | [b1, b2], hb => by
    have h1 : b1 < 256 := hb b1 (by simp)
    have h2 : b2 < 256 := hb b2 (by simp)
    rcases hmix (b1 / 4) (by omega) with e1 | e1
    · rcases hmix (b1 % 4 * 16 + b2 / 16) (by omega) with e2 | e2
      · rcases hmix (b2 % 16 * 4) (by omega) with e3 | e3
        · left
          simp only [b64Encode, if_true, b64DecodePadded, e1, e2]
          rw [if_neg (hne (b2 % 16 * 4) (by omega))]
          simp only [e3, if_true, Option.some.injEq, List.cons.injEq,
            and_true]
          refine ⟨by omega, by omega⟩
        · right
          simp only [b64Encode, if_true, b64DecodePadded, e1, e2]
          rw [if_neg (hne (b2 % 16 * 4) (by omega))]
          simp only [e3]
      · right
        simp only [b64Encode, if_true, b64DecodePadded, e1, e2]
    · right
      simp only [b64Encode, if_true, b64DecodePadded, e1]
  | b1 :: b2 :: b3 :: rest, hb => by
    have h1 : b1 < 256 := hb b1 (by simp)
    have h2 : b2 < 256 := hb b2 (by simp)
    have h3 : b3 < 256 := hb b3 (by simp)
    have ih := decodePadded_encode_mix A B hmix hne rest
      (fun b hbm => hb b (by simp [hbm]))
    rcases hmix (b1 / 4) (by omega) with e1 | e1
    · rcases hmix (b1 % 4 * 16 + b2 / 16) (by omega) with e2 | e2
      · rcases hmix (b2 % 16 * 4 + b3 / 64) (by omega) with e3 | e3
        · rcases hmix (b3 % 64) (by omega) with e4 | e4
          · rcases ih with ihs | ihn
            · left
              simp only [b64Encode, b64DecodePadded, e1, e2]
              rw [if_neg (hne (b2 % 16 * 4 + b3 / 64) (by omega))]
              simp only [e3]
              rw [if_neg (hne (b3 % 64) (by omega))]
              simp only [e4, ihs, Option.map_some', Option.some.injEq,
                List.cons.injEq, and_true, eq_self_iff_true, true_and]
              omega
            · right
              simp only [b64Encode, b64DecodePadded, e1, e2]
              rw [if_neg (hne (b2 % 16 * 4 + b3 / 64) (by omega))]
              simp only [e3]
              rw [if_neg (hne (b3 % 64) (by omega))]
              simp only [e4, ihn, Option.map_none']
          · right
            simp only [b64Encode, b64DecodePadded, e1, e2]
            rw [if_neg (hne (b2 % 16 * 4 + b3 / 64) (by omega))]
            simp only [e3]
            rw [if_neg (hne (b3 % 64) (by omega))]
            simp only [e4]
        · right
          simp only [b64Encode, b64DecodePadded, e1, e2]
          rw [if_neg (hne (b2 % 16 * 4 + b3 / 64) (by omega))]
          simp only [e3]
      · right
        simp only [b64Encode, b64DecodePadded, e1, e2]
    · right
      simp only [b64Encode, b64DecodePadded, e1]

/-- Raw version of `decodePadded_encode_mix`. -/
theorem decodeRaw_encode_mix (A B : List Char)
    (hmix : ∀ i : Nat, i < 64 → b64DecodeChar B (A.getD i ' ') = some i ∨
      b64DecodeChar B (A.getD i ' ') = none) :
    ∀ l : List Nat, (∀ b ∈ l, b < 256) →
      b64DecodeRaw B (b64Encode A false l) = some l ∨
      b64DecodeRaw B (b64Encode A false l) = none
  | [], _ => .inl rfl
  | [b1], hb => by
    have h1 : b1 < 256 := hb b1 (by simp)
    rcases hmix (b1 / 4) (by omega) with e1 | e1
    · rcases hmix (b1 % 4 * 16) (by omega) with e2 | e2
      · left
        simp only [b64Encode, if_false, b64DecodeRaw, e1, e2,
          Option.some.injEq, List.cons.injEq, and_true]
        omega
      · right
        simp only [b64Encode, if_false, b64DecodeRaw, e1, e2]
    · right
      simp only [b64Encode, if_false, b64DecodeRaw, e1]
  | [b1, b2], hb => by
    have h1 : b1 < 256 := hb b1 (by simp)
    have h2 : b2 < 256 := hb b2 (by simp)
    rcases hmix (b1 / 4) (by omega) with e1 | e1
    · rcases hmix (b1 % 4 * 16 + b2 / 16) (by omega) with e2 | e2
      · rcases hmix (b2 % 16 * 4) (by omega) with e3 | e3
        · left
          simp only [b64Encode, if_false, b64DecodeRaw, e1, e2, e3,
            Option.some.injEq, List.cons.injEq, and_true]
          refine ⟨by omega, by omega⟩
        · right
          simp only [b64Encode, if_false, b64DecodeRaw, e1, e2, e3]
      · right
        simp only [b64Encode, if_false, b64DecodeRaw, e1, e2]
    · right
      simp only [b64Encode, if_false, b64DecodeRaw, e1]
  | b1 :: b2 :: b3 :: rest, hb => by
    have h1 : b1 < 256 := hb b1 (by simp)
    have h2 : b2 < 256 := hb b2 (by simp)
    have h3 : b3 < 256 := hb b3 (by simp)
    have ih := decodeRaw_encode_mix A B hmix rest
      (fun b hbm => hb b (by simp [hbm]))
    have hsplit : ∀ res : Option (List Nat),
        b64DecodeRaw B (b64Encode A false rest) = res →
        b64DecodeRaw B (b64Encode A false (b1 :: b2 :: b3 :: rest)) =
          match b64DecodeChar B (A.getD (b1 / 4) ' '),
            b64DecodeChar B (A.getD (b1 % 4 * 16 + b2 / 16) ' '),
            b64DecodeChar B (A.getD (b2 % 16 * 4 + b3 / 64) ' '),
            b64DecodeChar B (A.getD (b3 % 64) ' ') with
          | some i1, some i2, some i3, some i4 =>
            (res).map (fun bs => (i1 * 4 + i2 / 16) ::
              (i2 % 16 * 16 + i3 / 4) :: (i3 % 4 * 64 + i4) :: bs)
          | _, _, _, _ => none := by
      intro res hres
      cases rest with
      | nil =>
        simp only [b64Encode, b64DecodeRaw]
        cases b64DecodeChar B (A.getD (b1 / 4) ' ') <;>
          cases b64DecodeChar B (A.getD (b1 % 4 * 16 + b2 / 16) ' ') <;>
          cases b64DecodeChar B (A.getD (b2 % 16 * 4 + b3 / 64) ' ') <;>
          cases b64DecodeChar B (A.getD (b3 % 64) ' ') <;>
          simp_all [b64DecodeRaw]
      | cons r rs =>
        have henc : b64Encode A false (r :: rs) ≠ [] :=
          b64Encode_ne_nil A false (r :: rs) (by simp)
        simp only [b64Encode]
        cases hE : b64Encode A false (r :: rs) with
        | nil => exact absurd hE henc
        | cons c cs =>
          rw [← hres, ← hE]
          simp only [b64DecodeRaw]
    rcases hmix (b1 / 4) (by omega) with e1 | e1
    · rcases hmix (b1 % 4 * 16 + b2 / 16) (by omega) with e2 | e2
      · rcases hmix (b2 % 16 * 4 + b3 / 64) (by omega) with e3 | e3
        · rcases hmix (b3 % 64) (by omega) with e4 | e4
          · rcases ih with ihs | ihn
            · left
              rw [hsplit _ ihs]
              simp only [e1, e2, e3, e4, Option.map_some', Option.some.injEq,
                List.cons.injEq, and_true, eq_self_iff_true, true_and]
              omega
            · right
              rw [hsplit _ ihn]
              simp only [e1, e2, e3, e4, Option.map_none']
          · right
            rw [hsplit _ rfl]
            simp only [e1, e2, e3, e4]
        · right
          rw [hsplit _ rfl]
          simp only [e1, e2, e3]
      · right
        rw [hsplit _ rfl]
        simp only [e1, e2]
    · right
      rw [hsplit _ rfl]
      simp only [e1]

/-- Padded decoding rejects a raw encoding whose byte count is not a
multiple of 3 (the trailing quantum is short). -/
theorem decodePadded_encodeRaw_none (A B : List Char)
    (hne : ∀ i : Nat, i < 64 → A.getD i ' ' ≠ '=') :
    ∀ l : List Nat, (∀ b ∈ l, b < 256) → l.length % 3 ≠ 0 →
      b64DecodePadded B (b64Encode A false l) = none
  | [], _, h => absurd rfl h
  | [_], _, _ => rfl
  | [_, _], _, _ => rfl
  | b1 :: b2 :: b3 :: rest, hb, h => by
    have h2 : b2 < 256 := hb b2 (by simp)
    have h3 : b3 < 256 := hb b3 (by simp)
    have hr : rest.length % 3 ≠ 0 := by
      simp only [List.length_cons] at h
      omega
    have ih := decodePadded_encodeRaw_none A B hne rest
      (fun b hbm => hb b (by simp [hbm])) hr
    cases e1 : b64DecodeChar B (A.getD (b1 / 4) ' ') with
    | none => simp only [b64Encode, b64DecodePadded, e1]
    | some i1 =>
      cases e2 : b64DecodeChar B (A.getD (b1 % 4 * 16 + b2 / 16) ' ') with
      | none => simp only [b64Encode, b64DecodePadded, e1, e2]
      | some i2 =>
        simp only [b64Encode, b64DecodePadded, e1, e2]
        rw [if_neg (hne (b2 % 16 * 4 + b3 / 64) (by omega))]
        cases e3 : b64DecodeChar B (A.getD (b2 % 16 * 4 + b3 / 64) ' ') with
        | none => simp only [e3]
        | some i3 =>
          simp only [e3]
          rw [if_neg (hne (b3 % 64) (by omega))]
          cases e4 : b64DecodeChar B (A.getD (b3 % 64) ' ') with
          | none => simp only [e4]
          | some i4 => simp only [e4, ih, Option.map_none']

/-- Raw decoding rejects a padded encoding whose byte count is not a
multiple of 3 (it trips over the `=` padding). -/
theorem decodeRaw_encodePadded_none (A B : List Char)
    (hpadB : b64DecodeChar B '=' = none) :
    ∀ l : List Nat, l.length % 3 ≠ 0 →
      b64DecodeRaw B (b64Encode A true l) = none
  | [], h => absurd rfl h
  | [b1], _ => by
    cases e1 : b64DecodeChar B (A.getD (b1 / 4) ' ') <;>
      cases e2 : b64DecodeChar B (A.getD (b1 % 4 * 16) ' ') <;>
      simp only [b64Encode, if_true, b64DecodeRaw, e1, e2, hpadB]
  | [b1, b2], _ => by
    cases e1 : b64DecodeChar B (A.getD (b1 / 4) ' ') <;>
      cases e2 : b64DecodeChar B (A.getD (b1 % 4 * 16 + b2 / 16) ' ') <;>
      cases e3 : b64DecodeChar B (A.getD (b2 % 16 * 4) ' ') <;>
      simp only [b64Encode, if_true, b64DecodeRaw, e1, e2, e3, hpadB]
  | b1 :: b2 :: b3 :: rest, h => by
    have hr : rest.length % 3 ≠ 0 := by
      simp only [List.length_cons] at h
      omega
    have ih := decodeRaw_encodePadded_none A B hpadB rest hr
    cases rest with
    | nil => simp at hr
    | cons r rs =>
      have henc : b64Encode A true (r :: rs) ≠ [] :=
        b64Encode_ne_nil A true (r :: rs) (by simp)
      cases hE : b64Encode A true (r :: rs) with
      | nil => exact absurd hE henc
      | cons c cs =>
        cases e1 : b64DecodeChar B (A.getD (b1 / 4) ' ') <;>
          cases e2 : b64DecodeChar B (A.getD (b1 % 4 * 16 + b2 / 16) ' ') <;>
          cases e3 : b64DecodeChar B
            (A.getD (b2 % 16 * 4 + b3 / 64) ' ') <;>
          cases e4 : b64DecodeChar B (A.getD (b3 % 64) ' ') <;>
          · rw [← hE] at *
            simp only [b64Encode, b64DecodeRaw, e1, e2, e3, e4, ih,
              Option.map_none']

/-- The `decodeBase64` chain on a padded standard encoding. -/
theorem decodeBase64_encode_std_pad (l : List Nat) (hb : ∀ b ∈ l, b < 256)
    (hne0 : l ≠ []) :
    decodeBase64 (b64Encode stdAlphabet true l) = some l := by
  have hnil := b64Encode_ne_nil stdAlphabet true l hne0
  have h1 := decodePadded_encode stdAlphabet stdAlphabet stdMatch stdNePad l hb
  simp only [decodeBase64]
  rw [if_neg hnil]
  simp only [h1]

/-- The `decodeBase64` chain on a raw standard encoding. -/
theorem decodeBase64_encode_std_raw (l : List Nat) (hb : ∀ b ∈ l, b < 256)
    (hne0 : l ≠ []) :
    decodeBase64 (b64Encode stdAlphabet false l) = some l := by
  by_cases h3 : l.length % 3 = 0
  · rw [← b64Encode_pad_eq_raw stdAlphabet l h3]
    exact decodeBase64_encode_std_pad l hb hne0
  · have hnil := b64Encode_ne_nil stdAlphabet false l hne0
    have h1 := decodePadded_encodeRaw_none stdAlphabet stdAlphabet stdNePad
      l hb h3
    have h2 := decodeRaw_encode stdAlphabet stdAlphabet stdMatch l hb
    simp only [decodeBase64]
    rw [if_neg hnil]
    simp only [h1, h2]

/-- The `decodeBase64` chain on a padded URL-safe encoding. -/
theorem decodeBase64_encode_url_pad (l : List Nat) (hb : ∀ b ∈ l, b < 256)
    (hne0 : l ≠ []) :
    decodeBase64 (b64Encode urlAlphabet true l) = some l := by
  have hnil := b64Encode_ne_nil urlAlphabet true l hne0
  rcases decodePadded_encode_mix urlAlphabet stdAlphabet stdUrlMix urlNePad
      l hb with h1 | h1
  · simp only [decodeBase64]
    rw [if_neg hnil]
    simp only [h1]
  · have hstep2 : b64DecodeRaw stdAlphabet (b64Encode urlAlphabet true l) =
        some l ∨
        b64DecodeRaw stdAlphabet (b64Encode urlAlphabet true l) = none := by
      by_cases h3 : l.length % 3 = 0
      · rw [b64Encode_pad_eq_raw urlAlphabet l h3]
        exact decodeRaw_encode_mix urlAlphabet stdAlphabet stdUrlMix l hb
      · exact .inr (decodeRaw_encodePadded_none urlAlphabet stdAlphabet
          stdDecPad l h3)
    have hurl := decodePadded_encode urlAlphabet urlAlphabet urlMatch
      urlNePad l hb
    rcases hstep2 with h2 | h2
    · simp only [decodeBase64]
      rw [if_neg hnil]
      simp only [h1, h2]
    · simp only [decodeBase64]
      rw [if_neg hnil]
      simp only [h1, h2, hurl]

/-- The `decodeBase64` chain on a raw URL-safe encoding. -/
theorem decodeBase64_encode_url_raw (l : List Nat) (hb : ∀ b ∈ l, b < 256)
    (hne0 : l ≠ []) :
    decodeBase64 (b64Encode urlAlphabet false l) = some l := by
  by_cases h3 : l.length % 3 = 0
  · rw [← b64Encode_pad_eq_raw urlAlphabet l h3]
    exact decodeBase64_encode_url_pad l hb hne0
  · have hnil := b64Encode_ne_nil urlAlphabet false l hne0
    have h1 := decodePadded_encodeRaw_none urlAlphabet stdAlphabet urlNePad
      l hb h3
    rcases decodeRaw_encode_mix urlAlphabet stdAlphabet stdUrlMix l hb
        with h2 | h2
    · simp only [decodeBase64]
      rw [if_neg hnil]
      simp only [h1, h2]
    · have h4 := decodePadded_encodeRaw_none urlAlphabet urlAlphabet urlNePad
        l hb h3
      have h5 := decodeRaw_encode urlAlphabet urlAlphabet urlMatch l hb
      simp only [decodeBase64]
      rw [if_neg hnil]
      simp only [h1, h2, h4, h5]

/-- Counterexample for C9: history replay re-emits with
`RawURLEncoding`, not standard base64 — for the bytes `FF FF` the emitted
text is `__8` while standard base64 is `//8=`; and the empty byte string
does not round-trip, since `decodeBase64` rejects the empty string. -/
theorem c9_standard_emission_counterexample :
    replayEncode [255, 255] = "__8".toList ∧
    b64Encode stdAlphabet true [255, 255] = "//8=".toList ∧
    "__8".toList ≠ "//8=".toList ∧
    decodeBase64 (b64Encode stdAlphabet true []) = none := by
  decide

/-- C9 (amended) — every nonempty byte string, encoded in any of the four
accepted base64 alphabets, is decoded on ingress by `decodeBase64` to the
same bytes; on history replay those bytes are re-emitted encoded as raw
(unpadded) URL-safe base64. -/
theorem c9_base64_round_trip (l : List Nat) (hb : ∀ b ∈ l, b < 256)
    (hne0 : l ≠ []) :
    decodeBase64 (b64Encode stdAlphabet true l) = some l
    ∧ decodeBase64 (b64Encode stdAlphabet false l) = some l
    ∧ decodeBase64 (b64Encode urlAlphabet true l) = some l
    ∧ decodeBase64 (b64Encode urlAlphabet false l) = some l
    ∧ replayEncode l = b64Encode urlAlphabet false l
    ∧ decodeBase64 (replayEncode l) = some l :=
  ⟨decodeBase64_encode_std_pad l hb hne0,
   decodeBase64_encode_std_raw l hb hne0,
   decodeBase64_encode_url_pad l hb hne0,
   decodeBase64_encode_url_raw l hb hne0,
   rfl,
   decodeBase64_encode_url_raw l hb hne0⟩

/-- Witness for C9 (amended): the four-byte string `00 FF 0A 07`
round-trips through padded standard and raw URL-safe base64. -/
theorem c9_base64_round_trip_witness :
    decodeBase64 (b64Encode stdAlphabet true [0, 255, 10, 7]) =
      some [0, 255, 10, 7] ∧
    decodeBase64 (replayEncode [0, 255, 10, 7]) = some [0, 255, 10, 7] :=
  have h := c9_base64_round_trip [0, 255, 10, 7] (by decide) (by decide)
  ⟨h.1, h.2.2.2.2.2⟩
